import Mathlib

/-!
Verification of the Monte Carlo Portfolio Simulation Engine specification
against the repository sources.  The repository ships the glue layer
(`src/main.py`) directly; the engine package it imports (`Security`,
`Portfolio`, `run_monte_carlo_simulation`, `build_efficient_frontier`) is
not part of the visible sources, so those components are modelled from
the specification text, faithfully to its words, over exact rational
arithmetic.
-/

namespace PSF

/-- Modelled from the spec: the "undefined metric" sentinel is an explicit
optional/result type at the metric-computation boundary, not a numeric
special value.  A metric is either the sentinel or a real (rational) number. -/
inductive MetricValue where
  | undefined : MetricValue
  | val : ℚ → MetricValue
deriving DecidableEq, Repr

/-- Arithmetic mean of a list of rationals (0 for the empty list,
since `x / 0 = 0` over ℚ). -/
def meanQ (xs : List ℚ) : ℚ := xs.sum / xs.length

/-- Modelled from the spec: the risk-metrics module is not under `src/`.
The downside sample: only those per-path CAGRs strictly below the
risk-free rate. -/
def downside (cagrs : List ℚ) (rf : ℚ) : List ℚ := cagrs.filter (fun c => c < rf)

/-- Modelled from the spec: Sortino ratio = (mean CAGR - rf) / downside
deviation, the sentinel `undefined` when no path falls below the risk-free
threshold.  The square root inside the downside deviation is abstracted as
the parameter `sqrtFn`; whether the ratio is defined does not depend on it. -/
def sortino_ratio (sqrtFn : ℚ → ℚ) (cagrs : List ℚ) (rf : ℚ) : MetricValue :=
  let d := downside cagrs rf
  if d.isEmpty then MetricValue.undefined
  else MetricValue.val ((meanQ cagrs - rf) / sqrtFn (meanQ (d.map (fun c => (c - rf) ^ 2))))

/-- Modelled from the spec: CVaR at the configured confidence level = mean of
the worst (1 - conf) fraction of the CAGRs (at least one observation). -/
def cvar (cagrs : List ℚ) (conf : ℚ) : ℚ :=
  let sorted := List.insertionSort (fun a b : ℚ => a ≤ b) cagrs
  let k := max 1 (((1 - conf) * (cagrs.length : ℚ)).floor.toNat)
  meanQ (sorted.take k)

/-- Modelled from the spec: CVaR ratio = mean CAGR / |CVaR|, flagged
`undefined` whenever CVaR ≥ 0. -/
def cvar_ratio (cagrs : List ℚ) (conf : ℚ) : MetricValue :=
  let c := cvar cagrs conf
  if 0 ≤ c then MetricValue.undefined
  else MetricValue.val (meanQ cagrs / |c|)

/-- C5: the risk metrics reducer never returns NaN/Inf and never raises: the
Sortino ratio is the explicit `undefined` sentinel exactly when no path's
CAGR falls below the risk-free rate, the CVaR ratio is the explicit
`undefined` sentinel exactly when CVaR ≥ 0, and in all other cases each
ratio is a (rational, hence real) number. -/
theorem metrics_sentinel_spec (sqrtFn : ℚ → ℚ) (cagrs : List ℚ) (rf conf : ℚ) :
    (sortino_ratio sqrtFn cagrs rf = MetricValue.undefined ↔ ∀ c ∈ cagrs, ¬ c < rf) ∧
    (cvar_ratio cagrs conf = MetricValue.undefined ↔ 0 ≤ cvar cagrs conf) ∧
    ((¬ ∀ c ∈ cagrs, ¬ c < rf) →
      ∃ x : ℚ, sortino_ratio sqrtFn cagrs rf = MetricValue.val x) ∧
    (¬ 0 ≤ cvar cagrs conf → ∃ x : ℚ, cvar_ratio cagrs conf = MetricValue.val x) := by
  refine ⟨?_, ?_, ?_, ?_⟩
  · unfold sortino_ratio
    by_cases h : (downside cagrs rf).isEmpty
    · simp only [h, if_true]
      constructor
      · intro _ c hc hlt
        have : c ∈ downside cagrs rf := List.mem_filter.mpr ⟨hc, by simpa using hlt⟩
        rw [List.isEmpty_iff] at h
        simp [h] at this
      · intro _; trivial
    · simp only [h, if_false]
      constructor
      · intro hcontra; exact absurd hcontra (by simp)
      · intro hall
        exfalso
        apply h
        rw [List.isEmpty_iff]
        unfold downside
        rw [List.filter_eq_nil_iff]
        intro c hc
        simpa using hall c hc
  · unfold cvar_ratio
    by_cases h : 0 ≤ cvar cagrs conf
    · simp [h]
    · simp [h]
  · intro hne
    unfold sortino_ratio
    have h : ¬ (downside cagrs rf).isEmpty := by
      intro hemp
      apply hne
      intro c hc hlt
      rw [List.isEmpty_iff] at hemp
      have : c ∈ downside cagrs rf := List.mem_filter.mpr ⟨hc, by simpa using hlt⟩
      simp [hemp] at this
    simp only [h, if_false]
    exact ⟨_, rfl⟩
  · intro h
    unfold cvar_ratio
    simp only [h, if_false]
    exact ⟨_, rfl⟩

/-! ### Efficient frontier weight enumeration (spec §4.5) -/

/-- Modelled from the spec: the frontier-search module is not under `src/`.
The admissible weights for one security: every multiple of
`inc` (the weight increment) lying in `[minW, maxW]`, in percentage points. -/
def weightOptions (minW maxW inc : ℕ) : List ℕ :=
  (List.range (maxW + 1)).filter (fun w => minW ≤ w && w % inc == 0)

/-- Modelled from the spec: bounded integer composition enumeration — every
combination of per-security weights, each a multiple of `inc` within
`[minW, maxW]`, summing exactly to `target` percentage points. -/
def enumerateWeights (minW maxW inc : ℕ) : ℕ → ℕ → List (List ℕ)
  | 0, target => if target = 0 then [[]] else []
  | n + 1, target =>
    (weightOptions minW maxW inc).flatMap (fun w =>
      if w ≤ target then
        (enumerateWeights minW maxW inc n (target - w)).map (fun ws => w :: ws)
      else [])

theorem mod_beq_iff_dvd (inc x : ℕ) : (x % inc == 0) = true ↔ inc ∣ x := by
  rw [beq_iff_eq]
  rcases Nat.eq_zero_or_pos inc with h | h
  · subst h
    simp [Nat.mod_zero, zero_dvd_iff]
  · exact ⟨Nat.dvd_of_mod_eq_zero, Nat.mod_eq_zero_of_dvd⟩

theorem mem_weightOptions (minW maxW inc x : ℕ) :
    x ∈ weightOptions minW maxW inc ↔ minW ≤ x ∧ x ≤ maxW ∧ inc ∣ x := by
  unfold weightOptions
  rw [List.mem_filter, List.mem_range, Bool.and_eq_true]
  constructor
  · rintro ⟨hr, h1, h2⟩
    exact ⟨by simpa using h1, by omega, (mod_beq_iff_dvd _ _).mp h2⟩
  · rintro ⟨h1, h2, h3⟩
    exact ⟨by omega, by simpa using h1, (mod_beq_iff_dvd _ _).mpr h3⟩

theorem mem_enumerateWeights (minW maxW inc : ℕ) :
    ∀ (n target : ℕ) (w : List ℕ),
      w ∈ enumerateWeights minW maxW inc n target ↔
        w.length = n ∧ (∀ x ∈ w, minW ≤ x ∧ x ≤ maxW ∧ inc ∣ x) ∧ w.sum = target := by
  intro n
  induction n with
  | zero =>
    intro target w
    unfold enumerateWeights
    by_cases h : target = 0
    · subst h
      simp only [if_true, List.mem_singleton]
      constructor
      · rintro rfl; simp
      · rintro ⟨hl, _, _⟩
        exact List.length_eq_zero.mp hl
    · simp only [h, if_false, List.not_mem_nil, false_iff]
      rintro ⟨hl, _, hs⟩
      have : w = [] := List.length_eq_zero.mp hl
      subst this
      simp at hs
      exact h hs.symm
  | succ n ih =>
    intro target w
    unfold enumerateWeights
    rw [List.mem_flatMap]
    constructor
    · rintro ⟨a, ha, hw⟩
      rw [mem_weightOptions] at ha
      by_cases hle : a ≤ target
      · rw [if_pos hle, List.mem_map] at hw
        obtain ⟨ws, hws, rfl⟩ := hw
        obtain ⟨hlen, hall, hsum⟩ := (ih (target - a) ws).mp hws
        refine ⟨by simp [hlen], ?_, ?_⟩
        · intro x hx
          rcases List.mem_cons.mp hx with rfl | hx
          · exact ha
          · exact hall x hx
        · simp only [List.sum_cons, hsum]
          omega
      · rw [if_neg hle] at hw
        exact absurd hw (List.not_mem_nil _)
    · rintro ⟨hlen, hall, hsum⟩
      obtain ⟨a, ws, rfl⟩ : ∃ a ws, w = a :: ws := by
        cases w with
        | nil => simp at hlen
        | cons a ws => exact ⟨a, ws, rfl⟩
      have ha := hall a (List.mem_cons_self a ws)
      have hsum' : a + ws.sum = target := by simpa using hsum
      refine ⟨a, (mem_weightOptions minW maxW inc a).mpr ha, ?_⟩
      rw [if_pos (by omega : a ≤ target), List.mem_map]
      refine ⟨ws, (ih (target - a) ws).mpr ⟨by simpa using hlen, ?_, by omega⟩, rfl⟩
      intro x hx
      exact hall x (List.mem_cons_of_mem a hx)

/-- C1: the efficient frontier search enumerates exactly the weight vectors
whose components are multiples of the weight increment lying in
`[min_weight, max_weight]` and summing to exactly 100 percentage points; for
2 securities with bounds 0/100 and increment 50 the candidate set is exactly
`[(0,100), (50,50), (100,0)]`. -/
theorem frontier_enumeration_spec (n minW maxW inc target : ℕ) (w : List ℕ) :
    (w ∈ enumerateWeights minW maxW inc n target ↔
      w.length = n ∧ (∀ x ∈ w, minW ≤ x ∧ x ≤ maxW ∧ inc ∣ x) ∧ w.sum = target) ∧
    enumerateWeights 0 100 50 2 100 = [[0, 100], [50, 50], [100, 0]] :=
  ⟨mem_enumerateWeights minW maxW inc n target w, by rfl⟩

/-! ### Portfolio path evolver (spec §4.3) -/

/-- Modelled from the spec: the evolver module is not under `src/`.
Initial holdings: the initial value distributed per target weights. -/
def initHoldings (weights : List ℚ) (v0 : ℚ) : List ℚ := weights.map (fun w => w * v0)

/-- Modelled from the spec: apply one period's per-security returns to the
per-security holding values. -/
def growHoldings (holdings rs : List ℚ) : List ℚ :=
  List.zipWith (fun h r => h * (1 + r)) holdings rs

/-- Modelled from the spec: reset holdings to the target weights against a
total portfolio value. -/
def rebalanceHoldings (weights : List ℚ) (total : ℚ) : List ℚ :=
  weights.map (fun w => w * total)

/-- Modelled from the spec: one simulation period at period index `t`
(0-based): grow the holdings by the period's returns, then — if rebalancing
is enabled and the period lands on a once-per-simulated-year boundary
(`spy` = steps per year) — reset holdings to the target weights against the
new total value. -/
def stepHoldings (weights : List ℚ) (spy : ℕ) (rebal : Bool) (t : ℕ)
    (holdings rs : List ℚ) : List ℚ :=
  let g := growHoldings holdings rs
  if rebal && (t + 1) % spy == 0 then rebalanceHoldings weights g.sum else g

/-- Modelled from the spec: the holdings state after each period of one path,
starting from period index `t`. -/
def holdingsTrace (weights : List ℚ) (spy : ℕ) (rebal : Bool) :
    ℕ → List ℚ → List (List ℚ) → List (List ℚ)
  | _, _, [] => []
  | t, holdings, rs :: rest =>
    let h := stepHoldings weights spy rebal t holdings rs
    h :: holdingsTrace weights spy rebal (t + 1) h rest

/-- Modelled from the spec: one portfolio value path — the initial value
followed by the total portfolio value after each period. -/
def evolvePath (weights : List ℚ) (spy : ℕ) (rebal : Bool) (v0 : ℚ)
    (returns : List (List ℚ)) : List ℚ :=
  v0 :: (holdingsTrace weights spy rebal 0 (initHoldings weights v0) returns).map List.sum

/-- Modelled from the spec: the evolver applied to each simulation path
independently. -/
def evolveAll (weights : List ℚ) (spy : ℕ) (rebal : Bool) (v0 : ℚ)
    (paths : List (List (List ℚ))) : List (List ℚ) :=
  paths.map (evolvePath weights spy rebal v0)

theorem holdingsTrace_length (weights : List ℚ) (spy : ℕ) (rebal : Bool) :
    ∀ (t : ℕ) (holdings : List ℚ) (returns : List (List ℚ)),
      (holdingsTrace weights spy rebal t holdings returns).length = returns.length := by
  intro t holdings returns
  induction returns generalizing t holdings with
  | nil => rfl
  | cons rs rest ih => simp [holdingsTrace, ih]

/-- C4: for S input paths of T periods each, the evolver outputs exactly S
value paths, each of length T+1, whose first element is the initial value. -/
theorem evolver_output_shape (weights : List ℚ) (spy : ℕ) (rebal : Bool) (v0 : ℚ)
    (paths : List (List (List ℚ))) (S T : ℕ)
    (hS : paths.length = S) (hT : ∀ p ∈ paths, p.length = T) :
    (evolveAll weights spy rebal v0 paths).length = S ∧
    ∀ vp ∈ evolveAll weights spy rebal v0 paths, vp.length = T + 1 ∧ vp.headD 0 = v0 := by
  constructor
  · simpa [evolveAll] using hS
  · intro vp hvp
    rw [evolveAll, List.mem_map] at hvp
    obtain ⟨p, hp, rfl⟩ := hvp
    refine ⟨?_, rfl⟩
    simp [evolvePath, holdingsTrace_length, hT p hp]

/-- Closed instance of `evolver_output_shape` at a concrete 2-path, 3-period
input. -/
theorem evolver_output_shape_witness :
    ([[[ (1:ℚ)/10 ], [ -(1:ℚ)/20 ], [ (3:ℚ)/100 ]],
      [[ (2:ℚ)/10 ], [ (0:ℚ) ], [ -(1:ℚ)/10 ]]] : List (List (List ℚ))).length = 2 ∧
    (evolveAll [1] 252 false 1000
      [[[ (1:ℚ)/10 ], [ -(1:ℚ)/20 ], [ (3:ℚ)/100 ]],
       [[ (2:ℚ)/10 ], [ (0:ℚ) ], [ -(1:ℚ)/10 ]]]).length = 2 ∧
    ∀ vp ∈ evolveAll [1] 252 false 1000
      [[[ (1:ℚ)/10 ], [ -(1:ℚ)/20 ], [ (3:ℚ)/100 ]],
       [[ (2:ℚ)/10 ], [ (0:ℚ) ], [ -(1:ℚ)/10 ]]], vp.length = 3 + 1 ∧ vp.headD 0 = 1000 := by
  refine ⟨by decide, ?_⟩
  exact evolver_output_shape [1] 252 false 1000 _ 2 3 (by decide) (by decide)

/-- Per-period compounded values of a single holding: after each period the
value is the previous value times (1 + that period's return). -/
def compoundVals (v : ℚ) : List ℚ → List ℚ
  | [] => []
  | r :: rest => (v * (1 + r)) :: compoundVals (v * (1 + r)) rest

theorem holdingsTrace_single (spy : ℕ) :
    ∀ (rs : List ℚ) (t : ℕ) (v : ℚ),
      holdingsTrace [1] spy false t [v] (rs.map (fun r => [r])) =
        (compoundVals v rs).map (fun x => [x]) := by
  intro rs
  induction rs with
  | nil => intro t v; rfl
  | cons r rest ih =>
    intro t v
    simp only [List.map_cons, holdingsTrace, stepHoldings, growHoldings, compoundVals,
      Bool.false_and, if_neg (by simp : ¬ (false = true)), List.zipWith_cons_cons,
      List.zipWith_nil_right]
    rw [ih]

theorem compound_getD (v0 : ℚ) (rs : List ℚ) (t : ℕ) (ht : t < rs.length) :
    (v0 :: compoundVals v0 rs).getD (t + 1) 0 =
      (v0 :: compoundVals v0 rs).getD t 0 * (1 + rs.getD t 0) := by
  induction rs generalizing v0 t with
  | nil => simp at ht
  | cons r rest ih =>
    cases t with
    | zero => simp [compoundVals, List.getD]
    | succ s =>
      have hs : s < rest.length := by simpa using ht
      simpa [compoundVals, List.getD] using ih (v0 * (1 + r)) s hs

/-- C3: with rebalancing disabled and a single security of target weight 1,
each simulated portfolio value path compounds that security's drawn returns:
value[t+1] = value[t] * (1 + return[t]) for every period. -/
theorem single_security_compounding (spy : ℕ) (v0 : ℚ) (rs : List ℚ) (t : ℕ)
    (ht : t < rs.length) :
    (evolvePath [1] spy false v0 (rs.map (fun r => [r]))).getD (t + 1) 0 =
      (evolvePath [1] spy false v0 (rs.map (fun r => [r]))).getD t 0 * (1 + rs.getD t 0) := by
  have hpath : evolvePath [1] spy false v0 (rs.map (fun r => [r])) =
      v0 :: compoundVals v0 rs := by
    rw [evolvePath, initHoldings]
    simp only [List.map_singleton, one_mul]
    rw [holdingsTrace_single]
    congr 1
    induction compoundVals v0 rs with
    | nil => rfl
    | cons x xs ihx => simp [ihx]
  rw [hpath]
  exact compound_getD v0 rs t ht

/-- Closed instance of `single_security_compounding` at a concrete 2-period
return path. -/
theorem single_security_compounding_witness :
    (0 : ℕ) < ([ (1:ℚ)/10, -(1:ℚ)/20 ] : List ℚ).length ∧
    (evolvePath [1] 252 false 100 (([ (1:ℚ)/10, -(1:ℚ)/20 ] : List ℚ).map (fun r => [r]))).getD (0 + 1) 0 =
      (evolvePath [1] 252 false 100 (([ (1:ℚ)/10, -(1:ℚ)/20 ] : List ℚ).map (fun r => [r]))).getD 0 0 *
        (1 + ([ (1:ℚ)/10, -(1:ℚ)/20 ] : List ℚ).getD 0 0) :=
  ⟨by decide, single_security_compounding 252 100 [ 1/10, -1/20 ] 0 (by decide)⟩

theorem rebalanceHoldings_sum (weights : List ℚ) (total : ℚ) :
    (rebalanceHoldings weights total).sum = weights.sum * total := by
  induction weights with
  | nil => simp [rebalanceHoldings]
  | cons w ws ih =>
    simp [rebalanceHoldings] at ih ⊢
    rw [ih]
    ring

/-- C8: with rebalancing enabled and normalized target weights, immediately
after every rebalancing boundary (period index ≡ 0 mod steps-per-year) the
holdings equal the target weights applied to the total portfolio value at
that moment, for every path position and every boundary crossed. -/
theorem rebalancing_resets_to_targets (weights : List ℚ) (spy : ℕ)
    (hw : weights.sum = 1) :
    ∀ (returns : List (List ℚ)) (t : ℕ) (holdings : List ℚ) (k : ℕ),
      k < returns.length → (t + k + 1) % spy = 0 →
      (holdingsTrace weights spy true t holdings returns).getD k [] =
        rebalanceHoldings weights
          ((holdingsTrace weights spy true t holdings returns).getD k []).sum := by
  intro returns
  induction returns with
  | nil => intro t holdings k hk; simp at hk
  | cons rs rest ih =>
    intro t holdings k hk hb
    cases k with
    | zero =>
      have hb0 : (t + 1) % spy = 0 := by simpa using hb
      simp only [holdingsTrace, List.getD_cons_zero, stepHoldings, hb0, Bool.true_and,
        beq_self_eq_true, if_true]
      rw [rebalanceHoldings_sum, hw, one_mul]
    | succ s =>
      have hs : s < rest.length := by simpa using hk
      have hb' : (t + 1 + s + 1) % spy = 0 := by
        have : t + 1 + s + 1 = t + (s + 1) + 1 := by omega
        rw [this]; exact hb
      simpa [holdingsTrace, List.getD_cons_succ] using
        ih (t + 1) (stepHoldings weights spy true t holdings rs) s hs hb'

/-- Closed instance of `rebalancing_resets_to_targets` at a concrete
two-security, two-period path with annual boundary every 2 periods. -/
theorem rebalancing_resets_to_targets_witness :
    ((([1/2, 1/2] : List ℚ)).sum = 1) ∧
    (1 < ([[ (1:ℚ)/10, (0:ℚ) ], [ (0:ℚ), (2:ℚ)/10 ]] : List (List ℚ)).length ∧
     (0 + 1 + 1) % 2 = 0 ∧
     (holdingsTrace [1/2, 1/2] 2 true 0 [50, 50]
        [[ (1:ℚ)/10, (0:ℚ) ], [ (0:ℚ), (2:ℚ)/10 ]]).getD 1 [] =
       rebalanceHoldings [1/2, 1/2]
         ((holdingsTrace [1/2, 1/2] 2 true 0 [50, 50]
            [[ (1:ℚ)/10, (0:ℚ) ], [ (0:ℚ), (2:ℚ)/10 ]]).getD 1 []).sum) := by
  refine ⟨by norm_num, by decide, by decide, ?_⟩
  exact rebalancing_resets_to_targets [1/2, 1/2] 2 (by norm_num)
    [[ (1:ℚ)/10, (0:ℚ) ], [ (0:ℚ), (2:ℚ)/10 ]] 0 [50, 50] 1 (by decide) (by decide)

/-! ### Correlated path generator (spec §4.2) -/

/-- Modelled from the spec: the generator module is not under `src/`.
A 64-bit linear congruential PRNG step; all randomness is derived from the
seed through this function alone. -/
def lcg (s : ℕ) : ℕ := (6364136223846793005 * s + 1442695040888963407) % 2 ^ 64

/-- One pseudo-random innovation derived from a PRNG state. -/
def innov (s : ℕ) : ℚ := ((s % 2 ^ 32 : ℕ) : ℚ) / 2 ^ 32 - 1 / 2

/-- Draw a vector of `n` innovations, threading the PRNG state. -/
def drawVec : ℕ → ℕ → List ℚ × ℕ
  | 0, s => ([], s)
  | n + 1, s =>
    let s1 := lcg s
    let p := drawVec n s1
    (innov s1 :: p.1, p.2)

/-- Matrix-vector product over ℚ (rows as lists). -/
def matVec (m : List (List ℚ)) (z : List ℚ) : List ℚ :=
  m.map (fun row => (List.zipWith (fun a b => a * b) row z).sum)

/-- Modelled from the spec: one period's correlated return vector μ + L·z. -/
def transformDraw (μ : List ℚ) (L : List (List ℚ)) (z : List ℚ) : List ℚ :=
  List.zipWith (fun a b => a + b) μ (matVec L z)

/-- Draw the `T` periods of one path, threading the PRNG state. -/
def drawPath (μ : List ℚ) (L : List (List ℚ)) (n : ℕ) : ℕ → ℕ → List (List ℚ) × ℕ
  | 0, s => ([], s)
  | tt + 1, s =>
    let p := drawVec n s
    let q := drawPath μ L n tt p.2
    (transformDraw μ L p.1 :: q.1, q.2)

/-- Draw `S` independent paths, threading the PRNG state. -/
def drawPaths (μ : List ℚ) (L : List (List ℚ)) (n T : ℕ) : ℕ → ℕ → List (List (List ℚ)) × ℕ
  | 0, s => ([], s)
  | ss + 1, s =>
    let p := drawPath μ L n T s
    let q := drawPaths μ L n T ss p.2
    (p.1 :: q.1, q.2)

/-- Modelled from the spec: the correlated path generator — factor Σ (the
deterministic Cholesky/eigen factorization abstracted as `factor`), seed the
PRNG, draw S×T×n innovations and transform each period's n-vector by
μ + L·z. -/
def generate_correlated_paths (factor : List (List ℚ) → List (List ℚ))
    (μ : List ℚ) (covM : List (List ℚ)) (T S : ℕ) (seed : ℕ) :
    List (List (List ℚ)) :=
  (drawPaths μ (factor covM) μ.length T S (lcg seed)).1

/-- C2: the correlated path generator is deterministic in its seed: two
invocations with the same seed and the same μ, Σ, T, S produce identical
output arrays. -/
theorem generator_determinism (factor : List (List ℚ) → List (List ℚ))
    (μ μ2 : List ℚ) (covM covM2 : List (List ℚ)) (T T2 S S2 seed seed2 : ℕ)
    (hμ : μ = μ2) (hc : covM = covM2) (hT : T = T2) (hS : S = S2)
    (hseed : seed = seed2) :
    generate_correlated_paths factor μ covM T S seed =
      generate_correlated_paths factor μ2 covM2 T2 S2 seed2 := by
  subst hμ; subst hc; subst hT; subst hS; subst hseed; rfl

/-- Closed instance of `generator_determinism` at a concrete input. -/
theorem generator_determinism_witness :
    generate_correlated_paths id [1/100, 2/100] [[1/10000, 0], [0, 1/10000]] 3 2 42 =
      generate_correlated_paths id [1/100, 2/100] [[1/10000, 0], [0, 1/10000]] 3 2 42 :=
  generator_determinism id [1/100, 2/100] [1/100, 2/100]
    [[1/10000, 0], [0, 1/10000]] [[1/10000, 0], [0, 1/10000]]
    3 3 2 2 42 42 rfl rfl rfl rfl rfl

/-! ### Covariance estimator (spec §4.1) -/

/-- Modelled from the spec: the estimator module is not under `src/`.
A security's historical return series, contiguous in time: an integer start
date index and the per-period returns at consecutive dates. -/
structure RetSeries where
  start : ℤ
  vals : List ℚ
deriving DecidableEq, Repr

/-- Last date index covered by a series. -/
def seriesEnd (s : RetSeries) : ℤ := s.start + s.vals.length - 1

/-- First date of the common overlapping range of all series. -/
def overlapLo : List RetSeries → ℤ
  | [] => 0
  | s :: rest => rest.foldl (fun a u => max a u.start) s.start

/-- Last date of the common overlapping range of all series. -/
def overlapHi : List RetSeries → ℤ
  | [] => 0
  | s :: rest => rest.foldl (fun a u => min a (seriesEnd u)) (seriesEnd s)

/-- Number of overlapping observations across all series. -/
def overlapCount (ss : List RetSeries) : ℕ :=
  (overlapHi ss - overlapLo ss + 1).toNat

/-- The portion of a series lying in the overlapping window. -/
def alignedSlice (lo : ℤ) (m : ℕ) (s : RetSeries) : List ℚ :=
  (s.vals.drop (lo - s.start).toNat).take m

/-- Sample covariance of two aligned return slices (n−1 denominator). -/
def sampleCovQ (xs ys : List ℚ) : ℚ :=
  (List.zipWith (fun a b => (a - meanQ xs) * (b - meanQ ys)) xs ys).sum /
    ((xs.length : ℚ) - 1)

/-- Modelled from the spec: the covariance estimator — align all series to
their common overlapping date range, fail with `InsufficientDataError` if
fewer than 2 overlapping observations remain or fewer observations than
securities, else return the sample mean vector and sample covariance matrix
over that window. -/
def calc_covariance (ss : List RetSeries) :
    Except String (List ℚ × List (List ℚ)) :=
  let m := overlapCount ss
  if m < 2 ∨ m < ss.length then Except.error "InsufficientDataError"
  else
    let slices := ss.map (alignedSlice (overlapLo ss) m)
    Except.ok (slices.map meanQ,
      slices.map (fun xs => slices.map (fun ys => sampleCovQ xs ys)))

/-- C6: the covariance estimator raises `InsufficientDataError` exactly when,
after aligning to the common overlapping window, fewer than 2 observations
remain or fewer observations than securities; otherwise it returns the
sample mean vector and sample covariance matrix over that window. -/
theorem covariance_insufficient_data_spec (ss : List RetSeries) :
    ((∃ e, calc_covariance ss = Except.error e) ↔
      overlapCount ss < 2 ∨ overlapCount ss < ss.length) ∧
    (¬ (overlapCount ss < 2 ∨ overlapCount ss < ss.length) →
      calc_covariance ss =
        Except.ok ((ss.map (alignedSlice (overlapLo ss) (overlapCount ss))).map meanQ,
          (ss.map (alignedSlice (overlapLo ss) (overlapCount ss))).map
            (fun xs => (ss.map (alignedSlice (overlapLo ss) (overlapCount ss))).map
              (fun ys => sampleCovQ xs ys)))) := by
  by_cases h : overlapCount ss < 2 ∨ overlapCount ss < ss.length
  · refine ⟨⟨fun _ => h, fun _ => ⟨"InsufficientDataError", ?_⟩⟩, fun hc => absurd h hc⟩
    simp [calc_covariance, h]
  · refine ⟨⟨?_, fun hc => absurd hc h⟩, fun _ => ?_⟩
    · rintro ⟨e, he⟩
      simp [calc_covariance, h] at he
    · simp [calc_covariance, h]

/-! ### Portfolio weights and `create_portfolio` (src/main.py) -/

/-- From `src/main.py` `create_portfolio`: the default equal weight vector
`[1 / len(securities)] * len(securities)` built when `weights is None`. -/
def defaultWeights (n : ℕ) : List ℚ := List.replicate n (1 / n)

/-- Modelled from the spec: the Portfolio constructor (not under `src/`)
renormalizes weights to sum to 1 before use. -/
def normalizeWeights (w : List ℚ) : List ℚ := w.map (fun x => x / w.sum)

/-- Observable side effects of `create_portfolio`, in program order. -/
inductive CPEvent where
  | portfolioConstructed
  | pricesFetched
  | covarianceComputed
deriving DecidableEq, Repr

/-- The Portfolio data visible at the glue layer. -/
structure PortfolioModel where
  name : String
  nSecurities : ℕ
  target_weights : List ℚ
  portfolio_value : ℚ
deriving Repr

/-- From `src/main.py` `create_portfolio` (lines 48–81): raise `ValueError`
on an empty security list before anything else; otherwise build the default
equal weights when none are given, construct the Portfolio, fetch historical
prices, compute the covariance matrix.  The returned trace records the side
effects in program order; the error branch performs none of them. -/
def create_portfolio (securities : List String) (weights : Option (List ℚ))
    (portfolio_name : String) (portfolio_value : ℚ) :
    Except String (PortfolioModel × List CPEvent) :=
  if securities.isEmpty then
    Except.error "Aucun titre défini dans la configuration."
  else
    let ws := weights.getD (defaultWeights securities.length)
    Except.ok
      ({ name := portfolio_name, nSecurities := securities.length,
         target_weights := ws, portfolio_value := portfolio_value },
       [CPEvent.portfolioConstructed, CPEvent.pricesFetched,
        CPEvent.covarianceComputed])

theorem sum_map_div (l : List ℚ) (s : ℚ) :
    (l.map (fun x => x / s)).sum = l.sum / s := by
  induction l with
  | nil => simp
  | cons x xs ih => simp [ih, div_add_div_same]

/-- C7: the default weight vector built by `create_portfolio` for n
securities sums to 1 within tolerance 1e-9, and every renormalized weight
vector sums to 1 within the same tolerance. -/
theorem weights_normalized_spec (n : ℕ) (w : List ℚ) (hn : 0 < n)
    (hw : w.sum ≠ 0) :
    |(defaultWeights n).sum - 1| ≤ 1 / 1000000000 ∧
    |(normalizeWeights w).sum - 1| ≤ 1 / 1000000000 := by
  have h1 : (defaultWeights n).sum = 1 := by
    rw [defaultWeights, List.sum_replicate, nsmul_eq_mul]
    rw [mul_one_div, div_self (by exact_mod_cast hn.ne' : (n : ℚ) ≠ 0)]
  have h2 : (normalizeWeights w).sum = 1 := by
    rw [normalizeWeights, sum_map_div, div_self hw]
  rw [h1, h2]
  norm_num

/-- Closed instance of `weights_normalized_spec` at n = 3 securities and a
concrete unnormalized weight vector. -/
theorem weights_normalized_spec_witness :
    (0 < 3 ∧ (([1, 2, 5] : List ℚ)).sum ≠ 0) ∧
    (|(defaultWeights 3).sum - 1| ≤ 1 / 1000000000 ∧
     |(normalizeWeights [1, 2, 5]).sum - 1| ≤ 1 / 1000000000) :=
  ⟨⟨by norm_num, by norm_num⟩,
   weights_normalized_spec 3 [1, 2, 5] (by norm_num) (by norm_num)⟩

/-- C10: `create_portfolio` fails fast on an empty securities list: it
returns the `ValueError` immediately, and no success value — hence no
constructed Portfolio, no price fetch and no covariance computation — is
ever produced. -/
theorem create_portfolio_fail_fast (weights : Option (List ℚ)) (nm : String)
    (v : ℚ) :
    create_portfolio [] weights nm v =
      Except.error "Aucun titre défini dans la configuration." ∧
    ∀ out, create_portfolio [] weights nm v ≠ Except.ok out := by
  refine ⟨rfl, ?_⟩
  intro out h
  simp [create_portfolio] at h

/-! ### Efficient frontier ranking (spec §4.5) -/

/-- Modelled from the spec: a frontier candidate — a weight vector plus the
risk metrics the engine produced for it. -/
structure FrontierCandidate where
  weights : List ℕ
  cagr_mean : ℚ
  expected_risk : ℚ
  sharpe : MetricValue
  sortino : MetricValue
  cvarRatio : MetricValue

/-- One row of a ranked frontier table:
(weights, cagr_mean, expected_risk, metric_value). -/
structure FrontierRow where
  weights : List ℕ
  cagr_mean : ℚ
  expected_risk : ℚ
  metric_value : MetricValue

/-- Descending order on metric values with the `undefined` sentinel sorting
last: any defined value precedes `undefined`, and defined values compare by
≥ on their rationals. -/
def mvGE : MetricValue → MetricValue → Bool
  | MetricValue.undefined, MetricValue.undefined => true
  | MetricValue.undefined, MetricValue.val _ => false
  | MetricValue.val _, MetricValue.undefined => true
  | MetricValue.val a, MetricValue.val b => b ≤ a

/-- The ranking relation on table rows: descending metric value,
`undefined` last. -/
def rowGE (a b : FrontierRow) : Prop := mvGE a.metric_value b.metric_value = true

instance : DecidableRel rowGE := fun a b => by unfold rowGE; infer_instance

theorem mvGE_total (a b : MetricValue) : mvGE a b = true ∨ mvGE b a = true := by
  cases a with
  | undefined =>
    cases b with
    | undefined => exact Or.inl rfl
    | val y => exact Or.inr rfl
  | val x =>
    cases b with
    | undefined => exact Or.inl rfl
    | val y =>
      rcases le_total x y with h | h
      · exact Or.inr (by simpa [mvGE] using h)
      · exact Or.inl (by simpa [mvGE] using h)

theorem mvGE_trans (a b c : MetricValue) (h1 : mvGE a b = true)
    (h2 : mvGE b c = true) : mvGE a c = true := by
  cases a with
  | undefined =>
    cases b with
    | undefined => exact h2
    | val y => exact absurd h1 (by simp [mvGE])
  | val x =>
    cases c with
    | undefined => rfl
    | val z =>
      cases b with
      | undefined => exact absurd h2 (by simp [mvGE])
      | val y =>
        have hxy : y ≤ x := by simpa [mvGE] using h1
        have hyz : z ≤ y := by simpa [mvGE] using h2
        simpa [mvGE] using hyz.trans hxy

instance : IsTotal FrontierRow rowGE :=
  ⟨fun a b => mvGE_total a.metric_value b.metric_value⟩

instance : IsTrans FrontierRow rowGE :=
  ⟨fun _ _ _ h1 h2 => mvGE_trans _ _ _ h1 h2⟩

/-- Project a candidate to a table row for a given metric. -/
def toRow (metric : FrontierCandidate → MetricValue) (c : FrontierCandidate) :
    FrontierRow :=
  ⟨c.weights, c.cagr_mean, c.expected_risk, metric c⟩

/-- Modelled from the spec: rank all candidates by one metric (descending,
`undefined` last) and keep the `top_n` best. -/
def rankTable (metric : FrontierCandidate → MetricValue) (top_n : ℕ)
    (cands : List FrontierCandidate) : List FrontierRow :=
  (List.insertionSort rowGE (cands.map (toRow metric))).take top_n

/-- The three ranked tables returned by the frontier search. -/
structure FrontierResult where
  top_by_sharpe : List FrontierRow
  top_by_sortino : List FrontierRow
  top_by_cvar_ratio : List FrontierRow

/-- Modelled from the spec: `build_efficient_frontier` — enumerate the weight
grid, evaluate each candidate with the engine (abstracted as `evaluate`),
and rank the candidates independently by Sharpe, Sortino and CVaR ratio. -/
def build_efficient_frontier (evaluate : List ℕ → FrontierCandidate)
    (n minW maxW inc top_n : ℕ) : FrontierResult :=
  let cands := (enumerateWeights minW maxW inc n 100).map evaluate
  ⟨rankTable FrontierCandidate.sharpe top_n cands,
   rankTable FrontierCandidate.sortino top_n cands,
   rankTable FrontierCandidate.cvarRatio top_n cands⟩

/-- What it means for `table` to be the `top_n` ranking of `cands` by
`metric`: sorted descending with `undefined` last, of length
`min top_n (number of candidates)`, a prefix of a sorted permutation of all
candidate rows, and every row projected from some candidate. -/
def rankedTableOf (metric : FrontierCandidate → MetricValue) (top_n : ℕ)
    (cands : List FrontierCandidate) (table : List FrontierRow) : Prop :=
  List.Sorted rowGE table ∧
  table.length = min top_n cands.length ∧
  (∃ s : List FrontierRow, s.Perm (cands.map (toRow metric)) ∧
    List.Sorted rowGE s ∧ table = s.take top_n) ∧
  ∀ row ∈ table, ∃ c ∈ cands, row = toRow metric c

theorem rankTable_spec (metric : FrontierCandidate → MetricValue) (top_n : ℕ)
    (cands : List FrontierCandidate) :
    rankedTableOf metric top_n cands (rankTable metric top_n cands) := by
  refine ⟨?_, ?_, ⟨List.insertionSort rowGE (cands.map (toRow metric)),
    List.perm_insertionSort rowGE _, List.sorted_insertionSort rowGE _, rfl⟩, ?_⟩
  · exact ((List.sorted_insertionSort rowGE _).sublist (List.take_sublist _ _))
  · rw [rankTable, List.length_take, (List.perm_insertionSort rowGE _).length_eq,
      List.length_map]
  · intro row hrow
    have hmem : row ∈ List.insertionSort rowGE (cands.map (toRow metric)) :=
      (List.take_sublist _ _).subset hrow
    have : row ∈ cands.map (toRow metric) :=
      (List.perm_insertionSort rowGE _).mem_iff.mp hmem
    rcases List.mem_map.mp this with ⟨c, hc, hcr⟩
    exact ⟨c, hc, hcr.symm⟩

/-- C9: `build_efficient_frontier` returns exactly three ranked tables, one
per metric (Sharpe, Sortino, CVaR ratio), each the `top_n` candidates ranked
descending by that metric with `undefined` values last, each row carrying
(weights, cagr_mean, expected_risk, metric_value). -/
theorem frontier_ranked_tables_spec (evaluate : List ℕ → FrontierCandidate)
    (n minW maxW inc top_n : ℕ) :
    rankedTableOf FrontierCandidate.sharpe top_n
      ((enumerateWeights minW maxW inc n 100).map evaluate)
      (build_efficient_frontier evaluate n minW maxW inc top_n).top_by_sharpe ∧
    rankedTableOf FrontierCandidate.sortino top_n
      ((enumerateWeights minW maxW inc n 100).map evaluate)
      (build_efficient_frontier evaluate n minW maxW inc top_n).top_by_sortino ∧
    rankedTableOf FrontierCandidate.cvarRatio top_n
      ((enumerateWeights minW maxW inc n 100).map evaluate)
      (build_efficient_frontier evaluate n minW maxW inc top_n).top_by_cvar_ratio :=
  ⟨rankTable_spec _ _ _, rankTable_spec _ _ _, rankTable_spec _ _ _⟩

end PSF
